import Mathlib

/-!
Shallow embedding of the Markov-chain bot's core text engine.

The embedding follows the TypeScript sources:
* `buildMarkovChain`, `generateText`, `getRandomMarkovOrder`, `analyzeText`
  from the integer-order variant of the engine;
* `buildMarkovChainQ`, the fractional-order variant of `buildMarkovChain`
  (default order `1.94`), where JavaScript array indexing at a non-integer
  index yields `undefined` (modelled as `Option`).

Strings are processed at the `List Char` level.  The JavaScript regex
replacements used for line cleaning (`/https?:\/\/[^\s]+/g`,
`/@[a-zA-Z0-9._-]+/g`, `/\s+/g`) are modelled as one-pass scanning
machines that are provably equivalent to the leftmost-greedy regex
semantics on these particular patterns.  `Math.random()`-driven draws are
modelled by an explicit list of natural numbers: each draw over `n`
alternatives consumes the head of the list and reduces it modulo `n`.
-/

namespace MarkovBot

/-- A character of the ASCII class `[A-Z]`, as tested by `/^[A-Z]/`. -/
def isUpperAZ (c : Char) : Bool :=
  'A' ≤ c && c ≤ 'Z'

/-- The test `/^[A-Z]/.test(s)` : the first character is an ASCII capital letter. -/
def startsUpper (l : List Char) : Bool :=
  match l with
  | [] => false
  | c :: _ => isUpperAZ c

/-- The test `/[.!?]$/.test(s)` : the last character is `.`, `!` or `?`. -/
def endsSentence (l : List Char) : Bool :=
  match l.getLast? with
  | none => false
  | some c => c == '.' || c == '!' || c == '?'

/-- A character of the regex class `[a-zA-Z0-9._-]` used for mentions. -/
def isMentionChar (c : Char) : Bool :=
  c.isAlpha || c.isDigit || c == '.' || c == '_' || c == '-'

/-- JavaScript `String.prototype.split` with a single-character separator:
all separator occurrences split, empty fields are kept, and the empty
string yields `[[]]`. -/
def splitChar (sep : Char) : List Char → List (List Char)
  | [] => [[]]
  | c :: cs =>
    if c == sep then [] :: splitChar sep cs
    else
      match splitChar sep cs with
      | [] => [[c]]
      | w :: ws => (c :: w) :: ws

/-- JavaScript `Array.prototype.join(" ")` on a list of words. -/
def joinSep : List (List Char) → List Char
  | [] => []
  | [w] => w
  | w :: x :: ws => w ++ ' ' :: joinSep (x :: ws)

/-- JavaScript `String.prototype.trim`: drop whitespace from both ends. -/
def trimL (l : List Char) : List Char :=
  ((l.dropWhile Char.isWhitespace).reverse.dropWhile Char.isWhitespace).reverse

/-- JavaScript `String.prototype.toLowerCase` (ASCII fragment). -/
def lowerL (l : List Char) : List Char :=
  l.map Char.toLower

/-- Does the list start with the scheme-and-nonspace prefix of the URL regex
`https?:\/\/[^\s]+`?  `c` is the current character, `cs` the rest. -/
def urlStart (c : Char) (cs : List Char) : Bool :=
  c == 'h' &&
    ((cs.take 7 == ('t' :: 't' :: 'p' :: 's' :: ':' :: '/' :: '/' :: []) &&
        (match cs.drop 7 with
         | [] => false
         | d :: _ => !d.isWhitespace)) ||
     (cs.take 6 == ('t' :: 't' :: 'p' :: ':' :: '/' :: '/' :: []) &&
        (match cs.drop 6 with
         | [] => false
         | d :: _ => !d.isWhitespace)))

/-- Scanning machine for `replace(/https?:\/\/[^\s]+/g, "")`.
When `skipping` is `true` we are inside a match and drop every character up
to (but excluding) the next whitespace.  A match starts at any position
whose text begins with `http://` or `https://` followed by at least one
non-whitespace character; since the greedy `[^\s]+` swallows every
non-whitespace character after the scheme, dropping the whole maximal
non-whitespace run starting at the scheme is exactly the regex semantics. -/
def rmUrlAux : Bool → List Char → List Char
  | _, [] => []
  | true, c :: cs =>
    if c.isWhitespace then c :: rmUrlAux false cs
    else rmUrlAux true cs
  | false, c :: cs =>
    if urlStart c cs then rmUrlAux true cs
    else c :: rmUrlAux false cs

/-- The replacement `sentence.replace(/https?:\/\/[^\s]+/g, "")`. -/
def removeUrls (l : List Char) : List Char :=
  rmUrlAux false l

/-- Scanning machine for `replace(/@[a-zA-Z0-9._-]+/g, "")`.
`skipping` means we are inside the `[a-zA-Z0-9._-]+` run of a match.
`@` is not in the class, so a run ends exactly at the first non-class
character, where normal scanning resumes (and a fresh `@`-match may begin
immediately). -/
def rmMentionAux : Bool → List Char → List Char
  | _, [] => []
  | skipping, c :: cs =>
    if skipping && isMentionChar c then rmMentionAux true cs
    else
      if c == '@' &&
          (match cs with
           | [] => false
           | d :: _ => isMentionChar d) then
        rmMentionAux true cs
      else c :: rmMentionAux false cs

/-- The replacement `sentence.replace(/@[a-zA-Z0-9._-]+/g, "")`. -/
def removeMentions (l : List Char) : List Char :=
  rmMentionAux false l

/-- Scanning machine for `replace(/\s+/g, " ")`: every maximal whitespace
run becomes a single space.  `inRun` records whether the previous
character belonged to a whitespace run. -/
def normWSAux : Bool → List Char → List Char
  | _, [] => []
  | inRun, c :: cs =>
    if c.isWhitespace then
      if inRun then normWSAux true cs
      else ' ' :: normWSAux true cs
    else c :: normWSAux false cs

/-- The replacement `sentence.replace(/\s+/g, " ")`. -/
def normWS (l : List Char) : List Char :=
  normWSAux false l

/-- The line-cleaning pipeline applied to each sentence:
remove URLs, remove mentions, normalize whitespace, trim. -/
def cleanLine (l : List Char) : List Char :=
  trimL (normWS (removeMentions (removeUrls l)))

/-- The tokenization `cleanSentence.split(" ").filter((word) => word.length > 0)`. -/
def wordsOf (l : List Char) : List (List Char) :=
  (splitChar ' ' l).filter (fun w => w ≠ [])

/-- The non-blank lines of the corpus:
`text.split("\n").filter((line) => line.trim().length > 0)`. -/
def corpusLines (text : String) : List (List Char) :=
  (splitChar '\n' text.data).filter (fun l => trimL l ≠ [])

/-- A Markov chain: a JavaScript object used as a map from string keys to
bags of successors, modelled as an association list in key-insertion
order.  The successor type is a parameter so that the fractional-order
variant can store `Option` values (possibly-`undefined` array reads). -/
abbrev Chain (α : Type) : Type :=
  List (String × List α)

/-- The update `chain[key].push(next)`, creating `chain[key] = []` first when the key
is absent: an existing entry gets `next` appended to its bag, a new key is
appended at the end (JavaScript object insertion order). -/
def chainAdd {α : Type} (chain : Chain α) (key : String) (next : α) : Chain α :=
  if chain.any (fun p => p.1 = key) then
    chain.map (fun p => if p.1 = key then (p.1, p.2 ++ [next]) else p)
  else
    chain ++ [(key, [next])]

/-- The lookup `chain[key]` as an optional bag. -/
def chainFind {α : Type} (chain : Chain α) (key : String) : Option (List α) :=
  (chain.find? (fun p => p.1 = key)).map (fun p => p.2)

/-- The key list `Object.keys(chain)` in insertion order. -/
def chainKeys {α : Type} (chain : Chain α) : List String :=
  chain.map (fun p => p.1)

/-- The body of `buildMarkovChain`'s `for (const sentence of sentences)`
loop: clean the sentence, `continue` when the cleaned sentence is shorter
than 10 characters or has at most `order` words, otherwise run
`for (let i = 0; i <= words.length - order - 1; i++)` pushing
`words[i + order]` onto the bag of `words.slice(i, i + order).join(" ")`. -/
def lineStep (order : Nat) (chain : Chain String) (sentence : List Char) :
    Chain String :=
  let cleanSentence := cleanLine sentence
  if cleanSentence.length < 10 then chain
  else
    let words := wordsOf cleanSentence
    if words.length ≤ order then chain
    else
      (List.range (words.length - order)).foldl
        (fun ch i =>
          chainAdd ch
            (String.mk (joinSep ((words.drop i).take order)))
            (String.mk (words.getD (i + order) [])))
        chain

/-- The function `buildMarkovChain(text, order)` from the integer-order variant:
split into non-blank lines and run the sentence loop over them, starting
from the empty chain. -/
def buildMarkovChain (text : String) (order : Nat) : Chain String :=
  (corpusLines text).foldl (lineStep order) []

/-- The window/successor pairs contributed by one line, in order: the pair
list is empty when a guard (`continue`) skips the line. -/
def linePairs (order : Nat) (l : List Char) : List (String × String) :=
  let cleanSentence := cleanLine l
  if cleanSentence.length < 10 then []
  else
    let words := wordsOf cleanSentence
    if words.length ≤ order then []
    else
      (List.range (words.length - order)).map
        (fun i =>
          (String.mk (joinSep ((words.drop i).take order)),
           String.mk (words.getD (i + order) [])))

/-- All window/successor pairs of the corpus, in the order the builder
visits them. -/
def corpusPairs (text : String) (order : Nat) : List (String × String) :=
  ((corpusLines text).map (linePairs order)).flatten

/-- The successors of key `k` over the whole corpus, in corpus order with
duplicates retained. -/
def occurrences (text : String) (order : Nat) (k : String) : List String :=
  (corpusPairs text order).filterMap
    (fun p => if p.1 = k then some p.2 else none)

/-- The slice `arr.slice(-n)` on a word list: the last `n` elements, the whole list
when `n = 0` (JavaScript `slice(-0)` is `slice(0)`) or when `n` exceeds
the length. -/
def sliceNeg (n : Nat) (l : List (List Char)) : List (List Char) :=
  if n = 0 then l else l.drop (l.length - n)

/-- One random draw over `n` alternatives: `Math.floor(Math.random() * n)`
consumes the head of the draw list, reduced modulo `n`. -/
def draw (rng : List Nat) (n : Nat) : Nat × List Nat :=
  (rng.headD 0 % n, rng.tail)

/-- The inner `while (result.length < maxLength)` walk of `generateText`:
look up the successors of the current key (stop when absent or empty),
draw one successor, append a space and the word, recompute the current key
as the last `order` words (stop if fewer), and stop early when the result
exceeds 50 characters and the appended word ends a sentence. -/
def walk (chain : Chain String) (maxLength order : Nat)
    (result : List Char) (currentKey : String) (rng : List Nat) :
    List Char × List Nat :=
  if h : result.length < maxLength then
    match chainFind chain currentKey with
    | none => (result, rng)
    | some possibleNextWords =>
      if possibleNextWords.length = 0 then (result, rng)
      else
        let (idx, rng1) := draw rng possibleNextWords.length
        let nextWord := possibleNextWords.getD idx (String.mk [])
        let result1 := result ++ ' ' :: nextWord.data
        let ws := splitChar ' ' result1
        if order ≤ ws.length then
          let currentKey1 := String.mk (joinSep (sliceNeg order ws))
          if 50 < result1.length ∧ endsSentence nextWord.data = true then
            (result1, rng1)
          else
            walk chain maxLength order result1 currentKey1 rng1
        else (result1, rng1)
  else (result, rng)
termination_by maxLength - result.length
decreasing_by
  simp only [List.length_append, List.length_cons]
  omega

/-- The backward scan of `generateText`: from the last word down over at
most the last 10 words, find the first word ending in sentence
punctuation.  `lo` is `Math.max(0, words.length - 10)` and the scan starts
at `words.length - 1 ≥ lo`. -/
def scanBack (ws : List (List Char)) (lo : Nat) : Nat → Option Nat
  | 0 => if endsSentence (ws.getD 0 []) = true then some 0 else none
  | i + 1 =>
    if endsSentence (ws.getD (i + 1) []) = true then some (i + 1)
    else if i + 1 ≤ lo then none
    else scanBack ws lo i

/-- The clean-up applied to a finished walk result: trim it, and when it
does not end in sentence punctuation and is longer than 100 characters,
truncate it right after the last punctuation-ending word among the final
10 words, if one exists. -/
def finishResult (res0 : List Char) : List Char :=
  let res1 := trimL res0
  if endsSentence res1 = false ∧ 100 < res1.length then
    let ws := splitChar ' ' res1
    match scanBack ws (ws.length - 10) (ws.length - 1) with
    | some i => joinSep (ws.take (i + 1))
    | none => res1
  else res1

/-- One attempt of `generateText`: choose a start key (uniformly among the
keys starting with a capital letter when any exist, otherwise among all
keys), run the walk from it, and clean up the result. -/
def attempt (chain : Chain String) (keys : List String)
    (maxLength order : Nat) (rng : List Nat) : List Char × List Nat :=
  let sentenceStarters := keys.filter (fun k => startsUpper k.data)
  let (startKey, rng1) :=
    if 0 < sentenceStarters.length then
      let (i, r) := draw rng sentenceStarters.length
      (sentenceStarters.getD i (String.mk []), r)
    else
      let (i, r) := draw rng keys.length
      (keys.getD i (String.mk []), r)
  let (res0, rng2) := walk chain maxLength order startKey.data startKey rng1
  (finishResult res0, rng2)

/-- The duplicate check of `generateText`:
`originalText.some(line => line.trim().toLowerCase() === result.toLowerCase())`. -/
def isDup (originalText : List String) (result : List Char) : Bool :=
  originalText.any (fun line => lowerL (trimL line.data) == lowerL result)

/-- The `while (attempts < maxAttempts)` retry loop of `generateText`:
each remaining attempt overwrites the carried result; a non-duplicate
result returns immediately, and when the budget is exhausted the carried
(last generated) result is returned. -/
def generateLoop (chain : Chain String) (keys : List String)
    (maxLength order : Nat) (originalText : List String) :
    Nat → List Char → List Nat → List Char × List Nat
  | 0, result, rng => (result, rng)
  | n + 1, _, rng =>
    let (result, rng1) := attempt chain keys maxLength order rng
    if isDup originalText result then
      generateLoop chain keys maxLength order originalText n result rng1
    else (result, rng1)

/-- The function `generateText(chain, maxLength, order, originalText, maxAttempts)`:
returns the sentinel string when the chain has no keys, otherwise runs the
attempt loop starting from the empty carried result.  The second component
is the state of the random source after the call. -/
def generateText (chain : Chain String) (maxLength order : Nat)
    (originalText : List String) (maxAttempts : Nat) (rng : List Nat) :
    String × List Nat :=
  let keys := chainKeys chain
  if keys.length = 0 then ("Not enough data to generate text", rng)
  else
    let (r, rng1) :=
      generateLoop chain keys maxLength order originalText maxAttempts [] rng
    (String.mk r, rng1)

/-- The state of the random source before the `k`-th attempt (counting
from 0) when `generateText` starts from `rng`. -/
def candRng (chain : Chain String) (maxLength order : Nat)
    (rng : List Nat) : Nat → List Nat
  | 0 => rng
  | k + 1 =>
    (attempt chain (chainKeys chain) maxLength order
      (candRng chain maxLength order rng k)).2

/-- The candidate string produced by the `k`-th attempt (counting from 0)
of `generateText` started from `rng`. -/
def candidate (chain : Chain String) (maxLength order : Nat)
    (rng : List Nat) (k : Nat) : List Char :=
  (attempt chain (chainKeys chain) maxLength order
    (candRng chain maxLength order rng k)).1

/-- The function `getRandomMarkovOrder()`: the uniform draw `Math.random()` is modelled
as a rational in `[0, 1)`. -/
def getRandomMarkovOrder (rand : ℚ) : Nat :=
  if rand < 1 / 10 then 1
  else if rand < 95 / 100 then 2
  else 3

/-- Scanning machine for `text.split(/\s+/)`: fields between maximal
whitespace runs, keeping the empty fields produced by leading or trailing
whitespace.  `inRun` records whether we are inside a whitespace run and
`acc` holds the reversed current field. -/
def splitWSAux : Bool → List Char → List Char → List (List Char)
  | false, acc, [] => [acc.reverse]
  | false, acc, c :: cs =>
    if c.isWhitespace then acc.reverse :: splitWSAux true [] cs
    else splitWSAux false (c :: acc) cs
  | true, _, [] => [[]]
  | true, _, c :: cs =>
    if c.isWhitespace then splitWSAux true [] cs
    else splitWSAux false [c] cs

/-- The split `text.split(/\s+/)` (the empty string yields one empty field, since
the regex never matches there). -/
def splitWS (l : List Char) : List (List Char) :=
  splitWSAux false [] l

/-- The rounding `Math.round(a / b)` for naturals with `b > 0`:
`⌊a / b + 1 / 2⌋ = (2 a + b) / (2 b)` in integer division. -/
def roundDiv (a b : Nat) : Nat :=
  (2 * a + b) / (2 * b)

/-- The record returned by `analyzeText`.  `avgWordsPerPost` is an
`Option`: `none` models the JavaScript division by a zero line count
(which produces `Infinity`, not a number). -/
structure Analysis where
  totalPosts : Nat
  totalWords : Nat
  avgWordsPerPost : Option Nat
  totalCharacters : Nat
deriving Repr, DecidableEq

/-- The function `analyzeText(text)`: line count over non-blank lines, word count by
`text.split(/\s+/).length` (empty fields from leading/trailing whitespace
included), rounded average, character count. -/
def analyzeText (text : String) : Analysis :=
  let lines := corpusLines text
  let totalWords := (splitWS text.data).length
  { totalPosts := lines.length
    totalWords := totalWords
    avgWordsPerPost :=
      if lines.length = 0 then none
      else some (roundDiv totalWords lines.length)
    totalCharacters := text.data.length }

/-- JavaScript array read `arr[q]` at a rational index: an element only
when `q` is a non-negative integer in range, `undefined` (`none`)
otherwise — in particular at every fractional index. -/
def getAtQ {α : Type} (l : List α) (q : ℚ) : Option α :=
  if q.den = 1 ∧ 0 ≤ q.num then l[q.num.toNat]? else none

/-- The number of iterations of `for (let i = 0; i <= words.length - order
- 1; i++)` when `order` is a rational: all integers `i ≥ 0` with
`i ≤ len - order - 1`. -/
def iterCountQ (len : Nat) (order : ℚ) : Nat :=
  if (len : ℚ) - order - 1 < 0 then 0
  else (⌊(len : ℚ) - order - 1⌋).toNat + 1

/-- The function `buildMarkovChain(text, order)` from the `src/markov.ts` variant,
whose default order is the non-integer `1.94`.  JavaScript semantics at a
rational order: the `words.length <= order` guard compares numbers; the
loop runs over integers `i ≤ words.length - order - 1`;
`words.slice(i, i + order)` truncates the fractional end index; and
`words[i + order]` is an array read at a fractional index, which is
`undefined` — so the bags store `Option (List Char)` successors. -/
def lineStepQ (order : ℚ) (chain : Chain (Option (List Char)))
    (sentence : List Char) : Chain (Option (List Char)) :=
  let cleanSentence := cleanLine sentence
  if cleanSentence.length < 10 then chain
  else
    let words := wordsOf cleanSentence
    if (words.length : ℚ) ≤ order then chain
    else
      (List.range (iterCountQ words.length order)).foldl
        (fun ch (i : Nat) =>
          chainAdd ch
            (String.mk (joinSep ((words.take (⌊(i : ℚ) + order⌋).toNat).drop i)))
            (getAtQ words ((i : ℚ) + order)))
        chain

/-- The sentence loop of the fractional-order builder over the non-blank
lines, starting from the empty chain. -/
def buildMarkovChainQ (text : String) (order : ℚ) : Chain (Option (List Char)) :=
  (corpusLines text).foldl (lineStepQ order) []

/-! ### Lemmas about splitting and joining -/

theorem splitChar_ne_nil (sep : Char) (l : List Char) : splitChar sep l ≠ [] := by
  induction l with
  | nil => simp [splitChar]
  | cons c cs ih =>
    simp only [splitChar]
    split
    · simp
    · cases h : splitChar sep cs with
      | nil => simp
      | cons w ws => simp

theorem not_mem_of_mem_splitChar (sep : Char) (l : List Char) :
    ∀ w ∈ splitChar sep l, sep ∉ w := by
  induction l with
  | nil =>
    intro w hw
    simp [splitChar] at hw
    simp [hw]
  | cons c cs ih =>
    intro w hw
    simp only [splitChar] at hw
    by_cases hc : c == sep
    · simp only [hc, if_pos rfl] at hw
      rcases List.mem_cons.mp hw with h | h
      · simp [h]
      · exact ih w h
    · simp only [hc] at hw
      rw [if_neg (by simp_all)] at hw
      cases h : splitChar sep cs with
      | nil => exact absurd h (splitChar_ne_nil sep cs)
      | cons w0 ws =>
        rw [h] at hw
        rcases List.mem_cons.mp hw with h1 | h1
        · subst h1
          intro hmem
          rcases List.mem_cons.mp hmem with h2 | h2
          · exact (by simpa [beq_iff_eq, h2] using hc)
          · exact ih w0 (by rw [h]; exact List.mem_cons_self w0 ws) h2
        · exact ih w (by rw [h]; exact List.mem_cons_of_mem w0 h1)

theorem joinSep_cons (w : List Char) (ws : List (List Char)) :
    joinSep (w :: ws) = w ++ (if ws.isEmpty then [] else ' ' :: joinSep ws) := by
  cases ws with
  | nil => simp [joinSep]
  | cons x xs => simp [joinSep]

theorem splitChar_append_not_sep (sep : Char) (w : List Char) (hw : sep ∉ w)
    (l : List Char) :
    splitChar sep (w ++ sep :: l) = w :: splitChar sep l := by
  induction w with
  | nil => simp [splitChar]
  | cons c cs ih =>
    have hc : (c == sep) = false := by
      simp only [beq_eq_false_iff_ne]
      intro h
      exact hw (by simp [h])
    have hcs : sep ∉ cs := fun h => hw (List.mem_cons_of_mem c h)
    simp only [List.cons_append, splitChar, hc, Bool.false_eq_true, if_false,
      List.append_eq, ih hcs]

theorem splitChar_of_not_sep (sep : Char) (w : List Char) (hw : sep ∉ w) :
    splitChar sep w = [w] := by
  induction w with
  | nil => simp [splitChar]
  | cons c cs ih =>
    have hc : (c == sep) = false := by
      simp only [beq_eq_false_iff_ne]
      intro h
      exact hw (by simp [h])
    have hcs : sep ∉ cs := fun h => hw (List.mem_cons_of_mem c h)
    simp only [splitChar, hc, Bool.false_eq_true, if_false, ih hcs]

theorem splitChar_joinSep (ws : List (List Char)) (hne : ws ≠ [])
    (hsp : ∀ w ∈ ws, ' ' ∉ w) :
    splitChar ' ' (joinSep ws) = ws := by
  induction ws with
  | nil => exact absurd rfl hne
  | cons w ws ih =>
    cases ws with
    | nil =>
      simp only [joinSep]
      exact splitChar_of_not_sep ' ' w (hsp w (List.mem_cons_self w []))
    | cons x xs =>
      simp only [joinSep]
      rw [splitChar_append_not_sep ' ' w (hsp w (List.mem_cons_self w _))]
      rw [show joinSep (x :: xs) = joinSep (x :: xs) from rfl] at *
      rw [ih (by simp) (fun u hu => hsp u (List.mem_cons_of_mem w hu))]

theorem joinSep_splitChar (l : List Char) :
    joinSep (splitChar ' ' l) = l := by
  induction l with
  | nil => simp [splitChar, joinSep]
  | cons c cs ih =>
    by_cases hc : c = ' '
    · subst hc
      simp only [splitChar, beq_self_eq_true, if_true]
      cases h : splitChar ' ' cs with
      | nil => exact absurd h (splitChar_ne_nil ' ' cs)
      | cons w ws =>
        rw [h] at ih
        simp [joinSep, ih]
    · have hcb : (c == ' ') = false := by
        simp only [beq_eq_false_iff_ne]
        exact hc
      simp only [splitChar, hcb, Bool.false_eq_true, if_false]
      cases h : splitChar ' ' cs with
      | nil => exact absurd h (splitChar_ne_nil ' ' cs)
      | cons w ws =>
        rw [h] at ih
        show joinSep ((c :: w) :: ws) = c :: cs
        cases ws with
        | nil => simp [joinSep] at ih ⊢; exact ih
        | cons x xs =>
          simp only [joinSep] at ih ⊢
          simp [ih]

theorem joinSep_length_le_of_take (ws : List (List Char)) (k : Nat) :
    (joinSep (ws.take k)).length ≤ (joinSep ws).length := by
  induction ws generalizing k with
  | nil => simp
  | cons w ws ih =>
    cases k with
    | zero => simp [joinSep]
    | succ k =>
      simp only [List.take_succ_cons, joinSep_cons, List.length_append]
      by_cases hws : ws = []
      · subst hws
        simp
      · have h2 : ws.isEmpty = false := by simp [hws]
        by_cases ht : ws.take k = []
        · simp only [ht, List.isEmpty_nil, if_true, List.length_nil, h2,
            Bool.false_eq_true, if_false]
          omega
        · have h3 : (ws.take k).isEmpty = false := by simp [ht]
          simp only [h2, h3, Bool.false_eq_true, if_false, List.length_cons]
          have hk := ih k
          omega

/-! ### Lemmas about the chain as an association map -/

/-- Pushing a list of key/successor pairs onto a chain in order. -/
def addPairs {α : Type} (chain : Chain α) (pairs : List (String × α)) :
    Chain α :=
  pairs.foldl (fun ch p => chainAdd ch p.1 p.2) chain

theorem mem_chainAdd {α : Type} {chain : Chain α} {key : String} {next : α}
    {p : String × List α} (hp : p ∈ chainAdd chain key next) :
    (∃ q ∈ chain, p.1 = q.1 ∧
      (p.2 = q.2 ∨ (q.1 = key ∧ p.2 = q.2 ++ [next]))) ∨
      (p.1 = key ∧ p.2 = [next]) := by
  unfold chainAdd at hp
  by_cases h : chain.any (fun q => q.1 = key)
  · rw [if_pos h] at hp
    rcases List.mem_map.mp hp with ⟨q, hq, hfq⟩
    by_cases hqk : q.1 = key
    · rw [if_pos hqk] at hfq
      subst hfq
      exact Or.inl ⟨q, hq, rfl, Or.inr ⟨hqk, rfl⟩⟩
    · rw [if_neg hqk] at hfq
      subst hfq
      exact Or.inl ⟨q, hq, rfl, Or.inl rfl⟩
  · rw [if_neg h] at hp
    rcases List.mem_append.mp hp with h1 | h1
    · exact Or.inl ⟨p, h1, rfl, Or.inl rfl⟩
    · right
      rcases List.mem_singleton.mp h1 with rfl
      exact ⟨rfl, rfl⟩

theorem chainFind_chainAdd {α : Type} (chain : Chain α) (key : String)
    (next : α) (k : String) :
    chainFind (chainAdd chain key next) k =
      if k = key then some ((chainFind chain k).getD [] ++ [next])
      else chainFind chain k := by
  unfold chainAdd chainFind
  by_cases h : chain.any (fun q => q.1 = key)
  · rw [if_pos h, List.find?_map]
    have hpf : ((fun (p : String × List α) => decide (p.1 = k)) ∘
        (fun p => if p.1 = key then (p.1, p.2 ++ [next]) else p)) =
        (fun (p : String × List α) => decide (p.1 = k)) := by
      funext q
      by_cases hq : q.1 = key <;> simp [hq]
    rw [hpf]
    cases hf : List.find? (fun (p : String × List α) => decide (p.1 = k)) chain with
    | none =>
      by_cases hk : k = key
      · subst hk
        rcases List.any_eq_true.mp h with ⟨q, hq, hqk⟩
        have := List.find?_eq_none.mp hf q hq
        simp_all
      · simp [hk]
    | some q =>
      have hqk : q.1 = k := by simpa using List.find?_some hf
      by_cases hk : k = key
      · subst hk
        simp [hqk]
      · have : ¬ q.1 = key := fun hcon => hk (hqk ▸ hcon)
        simp [hk, this]
  · rw [if_neg h, List.find?_append]
    have hnone : List.find? (fun (p : String × List α) => decide (p.1 = key)) chain = none := by
      rw [List.find?_eq_none]
      intro q hq hcon
      exact h (List.any_eq_true.mpr ⟨q, hq, hcon⟩)
    by_cases hk : k = key
    · subst hk
      rw [hnone]
      simp [List.find?, hnone]
    · have h2 : List.find? (fun (p : String × List α) => decide (p.1 = k)) [(key, [next])] = none := by
        simp [List.find?, Ne.symm hk]
      simp [h2, hk]

theorem chainFind_addPairs_getD {α : Type} (pairs : List (String × α))
    (chain : Chain α) (k : String) :
    (chainFind (addPairs chain pairs) k).getD [] =
      (chainFind chain k).getD [] ++
        pairs.filterMap (fun p => if p.1 = k then some p.2 else none) := by
  induction pairs generalizing chain with
  | nil => simp [addPairs]
  | cons q qs ih =>
    simp only [addPairs, List.foldl_cons] at ih ⊢
    rw [ih, chainFind_chainAdd]
    by_cases hk : k = q.1
    · simp [hk, List.filterMap_cons]
    · have : ¬ q.1 = k := fun hcon => hk hcon.symm
      simp [hk, List.filterMap_cons, this]

theorem addPairs_append {α : Type} (chain : Chain α)
    (a b : List (String × α)) :
    addPairs chain (a ++ b) = addPairs (addPairs chain a) b := by
  simp [addPairs, List.foldl_append]

theorem mem_addPairs_inv {α : Type} (P : String × List α → Prop)
    (pairs : List (String × α)) (chain : Chain α)
    (hstable : ∀ (k : String) (b : List α) (next : α), (k, next) ∈ pairs →
      P (k, b) → P (k, b ++ [next]))
    (hnew : ∀ (k : String) (next : α), (k, next) ∈ pairs → P (k, [next]))
    (hch : ∀ p ∈ chain, P p) :
    ∀ p ∈ addPairs chain pairs, P p := by
  induction pairs generalizing chain with
  | nil => simpa [addPairs] using hch
  | cons q qs ih =>
    simp only [addPairs, List.foldl_cons]
    refine ih (chainAdd chain q.1 q.2)
      (fun k b next hmem hP => hstable k b next (List.mem_cons_of_mem q hmem) hP)
      (fun k next hmem => hnew k next (List.mem_cons_of_mem q hmem))
      ?_
    intro p hp
    rcases mem_chainAdd hp with ⟨r, hr, h1, h2 | h2⟩ | ⟨h1, h2⟩
    · have := hch r hr
      rcases p with ⟨p1, p2⟩
      simp only at h1 h2
      subst h1
      subst h2
      exact this
    · rcases p with ⟨p1, p2⟩
      simp only at h1 h2
      subst h1
      rw [h2.2]
      have hq : (r.1, q.2) ∈ q :: qs := by
        rw [h2.1]
        exact List.mem_cons_self q qs
      exact hstable r.1 r.2 q.2 hq (hch r hr)
    · rcases p with ⟨p1, p2⟩
      simp only at h1 h2
      subst h1
      subst h2
      exact hnew q.1 q.2 (List.mem_cons_self q qs)


/-! ### The builder as a fold over its window/successor pairs -/

theorem lineStep_eq_addPairs (order : Nat) (chain : Chain String)
    (l : List Char) :
    lineStep order chain l = addPairs chain (linePairs order l) := by
  unfold lineStep linePairs
  by_cases h1 : (cleanLine l).length < 10
  · simp [h1, addPairs]
  · simp only [h1, if_false]
    by_cases h2 : (wordsOf (cleanLine l)).length ≤ order
    · simp [h2, addPairs]
    · simp only [h2, if_false, addPairs, List.foldl_map]

theorem foldl_lineStep_eq (order : Nat) (ls : List (List Char)) :
    ∀ chain : Chain String,
      ls.foldl (lineStep order) chain =
        addPairs chain ((ls.map (linePairs order)).flatten) := by
  induction ls with
  | nil =>
    intro chain
    simp [addPairs]
  | cons l ls ih =>
    intro chain
    simp only [List.foldl_cons, List.map_cons, List.flatten_cons]
    rw [lineStep_eq_addPairs, addPairs_append, ih]

theorem buildMarkovChain_eq_addPairs (text : String) (order : Nat) :
    buildMarkovChain text order = addPairs [] (corpusPairs text order) := by
  unfold buildMarkovChain corpusPairs
  exact foldl_lineStep_eq order (corpusLines text) []

theorem mem_wordsOf {l : List Char} {w : List Char} (hw : w ∈ wordsOf l) :
    w ≠ [] ∧ ' ' ∉ w := by
  rcases List.mem_filter.mp hw with ⟨hmem, hne⟩
  refine ⟨by simpa using hne, not_mem_of_mem_splitChar ' ' l w hmem⟩

theorem linePairs_key_shape (order : Nat) (h : 1 ≤ order) (l : List Char) :
    ∀ p ∈ linePairs order l,
      (splitChar ' ' p.1.data).length = order ∧
        ∀ w ∈ splitChar ' ' p.1.data, w ≠ [] := by
  intro p hp
  unfold linePairs at hp
  by_cases h1 : (cleanLine l).length < 10
  · simp [h1] at hp
  · simp only [h1, if_false] at hp
    by_cases h2 : (wordsOf (cleanLine l)).length ≤ order
    · simp [h2] at hp
    · simp only [h2, if_false] at hp
      rcases List.mem_map.mp hp with ⟨i, hi, hpi⟩
      have hilt : i < (wordsOf (cleanLine l)).length - order :=
        List.mem_range.mp hi
      set words := wordsOf (cleanLine l) with hwords
      have hlen : ((words.drop i).take order).length = order := by
        rw [List.length_take, List.length_drop]
        omega
      have hsub : ∀ w ∈ (words.drop i).take order, w ≠ [] ∧ ' ' ∉ w := by
        intro w hw
        exact mem_wordsOf (List.mem_of_mem_drop (List.mem_of_mem_take hw))
      have hne : (words.drop i).take order ≠ [] := by
        intro hcon
        rw [hcon] at hlen
        simp at hlen
        omega
      have hsplit : splitChar ' ' p.1.data = (words.drop i).take order := by
        rw [← hpi]
        exact splitChar_joinSep ((words.drop i).take order) hne
          (fun w hw => (hsub w hw).2)
      rw [hsplit, hlen]
      exact ⟨rfl, fun w hw => (hsub w hw).1⟩

/-- C1: for every corpus string and integer order ≥ 1, every key of the
chain returned by `buildMarkovChain` consists of exactly `order`
space-separated non-empty words, and the successor bag stored under every
key is non-empty. -/
theorem buildMarkovChain_keys_wellFormed (text : String) (order : Nat)
    (h : 1 ≤ order) :
    ∀ p ∈ buildMarkovChain text order,
      (splitChar ' ' p.1.data).length = order ∧
        (∀ w ∈ splitChar ' ' p.1.data, w ≠ []) ∧ p.2 ≠ [] := by
  rw [buildMarkovChain_eq_addPairs]
  have hkey : ∀ (k : String) (next : String),
      (k, next) ∈ corpusPairs text order →
      (splitChar ' ' k.data).length = order ∧
        ∀ w ∈ splitChar ' ' k.data, w ≠ [] := by
    intro k next hmem
    unfold corpusPairs at hmem
    rcases List.mem_flatten.mp hmem with ⟨ps, hps, hin⟩
    rcases List.mem_map.mp hps with ⟨l, _, hpl⟩
    subst hpl
    exact linePairs_key_shape order h l (k, next) hin
  apply mem_addPairs_inv
    (fun p => (splitChar ' ' p.1.data).length = order ∧
      (∀ w ∈ splitChar ' ' p.1.data, w ≠ []) ∧ p.2 ≠ [])
  · intro k b next _ hP
    exact ⟨hP.1, hP.2.1, by simp⟩
  · intro k next hmem
    rcases hkey k next hmem with ⟨ha, hb⟩
    exact ⟨ha, hb, by simp⟩
  · intro p hp
    simp at hp

/-- Witness for C1 at the corpus `"aaa bb ccc"` and order 2: the single
entry has the two-word key `"aaa bb"` and the non-empty bag `["ccc"]`. -/
theorem buildMarkovChain_keys_wellFormed_witness :
    1 ≤ 2 ∧ (("aaa bb", ["ccc"]) ∈ buildMarkovChain ("aaa bb ccc" : String) 2) ∧
      ((splitChar ' ' ("aaa bb" : String).data).length = 2 ∧
        (∀ w ∈ splitChar ' ' ("aaa bb" : String).data, w ≠ []) ∧
        (["ccc"] : List String) ≠ []) :=
  ⟨by decide, by decide,
    buildMarkovChain_keys_wellFormed ("aaa bb ccc" : String) 2 (by decide)
      ("aaa bb", ["ccc"]) (by decide)⟩

/-! ### C2: round-trip between the chain and corpus occurrences -/

theorem chainFind_buildMarkovChain_getD (text : String) (order : Nat)
    (k : String) :
    (chainFind (buildMarkovChain text order) k).getD [] =
      occurrences text order k := by
  rw [buildMarkovChain_eq_addPairs, chainFind_addPairs_getD]
  simp [chainFind, occurrences]

/-- C2: for every corpus and order, the bag stored under key `k` is
exactly the list of successors of the window `k` over all sufficiently
long, sufficiently clean lines, in corpus order with duplicates retained;
in particular the three-line example corpus with order 2 maps `"I love"`
to `["sunny", "rainy", "sunny"]`. -/
theorem buildMarkovChain_roundTrip :
    (∀ (text : String) (order : Nat) (k : String),
        (chainFind (buildMarkovChain text order) k).getD [] =
          occurrences text order k) ∧
      chainFind
          (buildMarkovChain
            ("I love sunny days.\nI love rainy days.\nI love sunny mornings." :
              String) 2)
          ("I love" : String) =
        some ["sunny", "rainy", "sunny"] :=
  ⟨chainFind_buildMarkovChain_getD, by decide⟩

/-! ### C3: empty chain returns the sentinel untouched -/

/-- C3: when the chain passed to `generateText` has zero keys, the fixed
sentinel string is returned immediately and the random source is returned
unchanged (no draws, no attempts, no duplicate comparisons). -/
theorem generateText_no_keys (chain : Chain String) (maxLength order : Nat)
    (originalText : List String) (maxAttempts : Nat) (rng : List Nat)
    (h : (chainKeys chain).length = 0) :
    generateText chain maxLength order originalText maxAttempts rng =
      ("Not enough data to generate text", rng) := by
  simp only [generateText, h, if_true]

/-- Witness for C3 at the empty chain. -/
theorem generateText_no_keys_witness :
    (chainKeys ([] : Chain String)).length = 0 ∧
      generateText [] 280 2 [] 10 [1, 2, 3] =
        ("Not enough data to generate text", [1, 2, 3]) :=
  ⟨rfl, generateText_no_keys [] 280 2 [] 10 [1, 2, 3] rfl⟩

/-! ### C6: the off-by-one boundary at exactly order + 1 tokens -/

/-- C6: when the corpus has a single kept line whose cleaned form is at
least 10 characters long and has exactly `order + 1` tokens, the builder
produces exactly one key — the first `order` tokens joined by spaces —
whose bag holds the single successor `tokens[order]`. -/
theorem buildMarkovChain_single_window (text : String) (order : Nat)
    (l : List Char) (h1 : 1 ≤ order) (h2 : corpusLines text = [l])
    (h3 : 10 ≤ (cleanLine l).length)
    (h4 : (wordsOf (cleanLine l)).length = order + 1) :
    buildMarkovChain text order =
      [(String.mk (joinSep ((wordsOf (cleanLine l)).take order)),
        [String.mk ((wordsOf (cleanLine l)).getD order [])])] := by
  unfold buildMarkovChain
  rw [h2]
  simp only [List.foldl_cons, List.foldl_nil]
  have hlt : ¬ (cleanLine l).length < 10 := by omega
  have hle : ¬ (wordsOf (cleanLine l)).length ≤ order := by omega
  simp only [lineStep, hlt, hle, if_false, h4]
  rw [if_neg (by omega)]
  have hone : order + 1 - order = 1 := by omega
  rw [hone, show List.range 1 = [0] from rfl]
  simp only [List.foldl_cons, List.foldl_nil, List.drop_zero, Nat.zero_add]
  simp [chainAdd]

/-- Witness for C6: the 10-character corpus `"aaa bb ccc"` with order 2
has exactly 3 = 2 + 1 tokens and produces the single key `"aaa bb"` with
the single successor `"ccc"`. -/
theorem buildMarkovChain_single_window_witness :
    (1 ≤ 2 ∧ corpusLines ("aaa bb ccc" : String) = [("aaa bb ccc" : String).data] ∧
      10 ≤ (cleanLine ("aaa bb ccc" : String).data).length ∧
      (wordsOf (cleanLine ("aaa bb ccc" : String).data)).length = 2 + 1) ∧
    buildMarkovChain ("aaa bb ccc" : String) 2 =
      [(String.mk (joinSep ((wordsOf (cleanLine ("aaa bb ccc" : String).data)).take 2)),
        [String.mk ((wordsOf (cleanLine ("aaa bb ccc" : String).data)).getD 2 [])])] :=
  ⟨⟨by decide, by decide, by decide, by decide⟩,
    buildMarkovChain_single_window ("aaa bb ccc" : String) 2
      ("aaa bb ccc" : String).data (by decide) (by decide) (by decide) (by decide)⟩

/-! ### C7: the weighted order selector -/

/-- C7: `getRandomMarkovOrder` always returns 1, 2 or 3, and returns 1
exactly when the uniform draw is below 0.10, 2 exactly when it lies in
[0.10, 0.95), and 3 otherwise. -/
theorem getRandomMarkovOrder_cases (rand : ℚ) :
    (getRandomMarkovOrder rand = 1 ∨ getRandomMarkovOrder rand = 2 ∨
      getRandomMarkovOrder rand = 3) ∧
    (getRandomMarkovOrder rand = 1 ↔ rand < 1 / 10) ∧
    (getRandomMarkovOrder rand = 2 ↔ 1 / 10 ≤ rand ∧ rand < 95 / 100) ∧
    (getRandomMarkovOrder rand = 3 ↔ 95 / 100 ≤ rand) := by
  unfold getRandomMarkovOrder
  by_cases h1 : rand < 1 / 10
  · rw [if_pos h1]
    refine ⟨Or.inl rfl, ⟨fun _ => h1, fun _ => rfl⟩, ?_, ?_⟩
    · constructor
      · intro h
        exact absurd h (by norm_num)
      · rintro ⟨ha, _⟩
        exact absurd h1 (not_lt.mpr ha)
    · constructor
      · intro h
        exact absurd h (by norm_num)
      · intro ha
        exact absurd h1 (not_lt.mpr (le_trans (by norm_num) ha))
  · rw [if_neg h1]
    by_cases h2 : rand < 95 / 100
    · rw [if_pos h2]
      refine ⟨Or.inr (Or.inl rfl), ?_, ?_, ?_⟩
      · constructor
        · intro h
          exact absurd h (by norm_num)
        · intro ha
          exact absurd ha h1
      · exact ⟨fun _ => ⟨not_lt.mp h1, h2⟩, fun _ => rfl⟩
      · constructor
        · intro h
          exact absurd h (by norm_num)
        · intro ha
          exact absurd h2 (not_lt.mpr ha)
    · rw [if_neg h2]
      refine ⟨Or.inr (Or.inr rfl), ?_, ?_, ?_⟩
      · constructor
        · intro h
          exact absurd h (by norm_num)
        · intro ha
          exact absurd ha h1
      · constructor
        · intro h
          exact absurd h (by norm_num)
        · rintro ⟨_, hb⟩
          exact absurd hb h2
      · exact ⟨fun _ => not_lt.mp h2, fun _ => rfl⟩

/-! ### C8: the analyzer does not guard the zero-line division -/

/-- C8: on a corpus with zero usable lines the analyzer reports zero
posts, but its average-words field is the unguarded division of the word
count by the zero line count (JavaScript `Infinity`, modelled `none`) —
not a defined zero/sentinel value. -/
theorem analyzeText_zero_lines_unguarded :
    (analyzeText "").totalPosts = 0 ∧ (analyzeText "").totalWords = 1 ∧
      (analyzeText "").avgWordsPerPost = none := by
  decide


/-! ### C9: fractional order stores only undefined successors -/

theorem getAtQ_fractional {α : Type} (l : List α) (q : ℚ) (h : q.den ≠ 1) :
    getAtQ l q = none := by
  unfold getAtQ
  rw [if_neg]
  intro hcon
  exact h hcon.1

theorem den_ne_one_of_between (o : ℚ) (h1 : 1 < o) (h2 : o < 2) :
    o.den ≠ 1 := by
  intro hcon
  have h3 : ((o.num : ℚ)) = o := (Rat.den_eq_one_iff o).mp hcon
  have h4 : (1 : ℚ) < (o.num : ℚ) := by
    rw [h3]
    exact h1
  have h5 : ((o.num : ℚ)) < 2 := by
    rw [h3]
    exact h2
  have h6 : (1 : ℤ) < o.num := by exact_mod_cast h4
  have h7 : o.num < 2 := by exact_mod_cast h5
  omega

theorem den_add_nat (i : Nat) (o : ℚ) (h : o.den ≠ 1) :
    ((i : ℚ) + o).den ≠ 1 := by
  intro hcon
  apply h
  have hint : ((((i : ℚ) + o).num : ℚ)) = (i : ℚ) + o :=
    (Rat.den_eq_one_iff _).mp hcon
  have ho : o = Int.cast ((((i : ℚ) + o).num - (i : ℤ))) := by
    push_cast
    linarith
  rw [ho, Rat.den_intCast]

/-- The window/successor pairs contributed by one line in the
fractional-order builder. -/
def linePairsQ (order : ℚ) (l : List Char) :
    List (String × Option (List Char)) :=
  let cleanSentence := cleanLine l
  if cleanSentence.length < 10 then []
  else
    let words := wordsOf cleanSentence
    if (words.length : ℚ) ≤ order then []
    else
      (List.range (iterCountQ words.length order)).map
        (fun (i : Nat) =>
          (String.mk (joinSep ((words.take (⌊(i : ℚ) + order⌋).toNat).drop i)),
           getAtQ words ((i : ℚ) + order)))

/-- All window/successor pairs of the fractional-order builder. -/
def corpusPairsQ (text : String) (order : ℚ) :
    List (String × Option (List Char)) :=
  ((corpusLines text).map (linePairsQ order)).flatten

theorem lineStepQ_eq_addPairs (order : ℚ)
    (chain : Chain (Option (List Char))) (l : List Char) :
    lineStepQ order chain l = addPairs chain (linePairsQ order l) := by
  unfold lineStepQ linePairsQ
  by_cases h1 : (cleanLine l).length < 10
  · simp [h1, addPairs]
  · simp only [h1, if_false]
    by_cases h2 : ((wordsOf (cleanLine l)).length : ℚ) ≤ order
    · simp [h2, addPairs]
    · simp only [h2, if_false, addPairs, List.foldl_map]

theorem buildMarkovChainQ_eq_addPairs (text : String) (order : ℚ) :
    buildMarkovChainQ text order = addPairs [] (corpusPairsQ text order) := by
  unfold buildMarkovChainQ corpusPairsQ
  have hgen : ∀ (ls : List (List Char)) (chain : Chain (Option (List Char))),
      ls.foldl (lineStepQ order) chain =
        addPairs chain ((ls.map (linePairsQ order)).flatten) := by
    intro ls
    induction ls with
    | nil =>
      intro chain
      simp [addPairs]
    | cons l ls ih =>
      intro chain
      simp only [List.foldl_cons, List.map_cons, List.flatten_cons]
      rw [lineStepQ_eq_addPairs, addPairs_append, ih]
  exact hgen (corpusLines text) []

theorem corpusPairsQ_succ_none (text : String) (o : ℚ) (h : o.den ≠ 1) :
    ∀ p ∈ corpusPairsQ text o, p.2 = none := by
  intro p hp
  unfold corpusPairsQ at hp
  rcases List.mem_flatten.mp hp with ⟨ps, hps, hin⟩
  rcases List.mem_map.mp hps with ⟨l, _, hpl⟩
  subst hpl
  unfold linePairsQ at hin
  by_cases h1 : (cleanLine l).length < 10
  · simp [h1] at hin
  · simp only [h1, if_false] at hin
    by_cases h2 : ((wordsOf (cleanLine l)).length : ℚ) ≤ o
    · simp [h2] at hin
    · simp only [h2, if_false] at hin
      rcases List.mem_map.mp hin with ⟨i, _, hpi⟩
      rw [← hpi]
      exact getAtQ_fractional _ _ (den_add_nat i o h)

/-- C9: for every corpus and every non-integer order strictly between 1
and 2 (such as the default 1.94 of the `src/markov.ts` variant), every
successor stored by the fractional-order builder is the array read at a
non-integer index, hence `undefined`: the bags contain only `none`, never
an actual corpus word. -/
theorem buildMarkovChainQ_fractional_undefined (text : String) (o : ℚ)
    (h1 : 1 < o) (h2 : o < 2) :
    ∀ p ∈ buildMarkovChainQ text o, ∀ s ∈ p.2, s = none := by
  have hden := den_ne_one_of_between o h1 h2
  rw [buildMarkovChainQ_eq_addPairs]
  apply mem_addPairs_inv (fun p => ∀ s ∈ p.2, s = none)
  · intro k b next hmem hP s hs
    rcases List.mem_append.mp hs with hsb | hsn
    · exact hP s hsb
    · rw [List.mem_singleton.mp hsn]
      exact corpusPairsQ_succ_none text o hden (k, next) hmem
  · intro k next hmem s hs
    rw [List.mem_singleton.mp hs]
    exact corpusPairsQ_succ_none text o hden (k, next) hmem
  · intro p hp
    simp at hp

theorem buildMarkovChainQ_example :
    buildMarkovChainQ ("aaa bb ccc" : String) (97 / 50) =
      [(("aaa" : String), [(none : Option (List Char))])] := by
  have hline : corpusLines ("aaa bb ccc" : String) =
      [("aaa bb ccc" : String).data] := by decide
  unfold buildMarkovChainQ
  rw [hline]
  simp only [List.foldl_cons, List.foldl_nil]
  simp only [lineStepQ]
  have hclean : cleanLine ("aaa bb ccc" : String).data =
      ("aaa bb ccc" : String).data := by decide
  rw [hclean]
  rw [if_neg (by decide)]
  have hwords : wordsOf ("aaa bb ccc" : String).data =
      [('a' :: 'a' :: 'a' :: []), ('b' :: 'b' :: []),
        ('c' :: 'c' :: 'c' :: [])] := by decide
  rw [hwords]
  simp only [List.length_cons, List.length_nil]
  rw [if_neg (by push_cast; norm_num)]
  have hiter : iterCountQ 3 (97 / 50) = 1 := by
    unfold iterCountQ
    rw [if_neg (by norm_num)]
    norm_num [Int.floor_eq_iff]
  rw [hiter, show List.range 1 = [0] from rfl]
  simp only [List.foldl_cons, List.foldl_nil, Nat.cast_zero, zero_add]
  rw [show (⌊(97 : ℚ) / 50⌋).toNat = 1 from by norm_num [Int.floor_eq_iff]]
  rw [getAtQ_fractional _ _
    (den_ne_one_of_between _ (by norm_num) (by norm_num))]
  decide

/-- Witness for C9 at the corpus `"aaa bb ccc"` and the default order
1.94 = 97/50: the chain has the single key `"aaa"` whose bag holds one
`undefined` successor, and that successor is indeed `none`. -/
theorem buildMarkovChainQ_fractional_undefined_witness :
    ((1 : ℚ) < 97 / 50 ∧ (97 : ℚ) / 50 < 2) ∧
      buildMarkovChainQ ("aaa bb ccc" : String) (97 / 50) =
        [(("aaa" : String), [(none : Option (List Char))])] ∧
      (none : Option (List Char)) = none :=
  ⟨⟨by norm_num, by norm_num⟩, buildMarkovChainQ_example,
    buildMarkovChainQ_fractional_undefined ("aaa bb ccc" : String) (97 / 50)
      (by norm_num) (by norm_num) (("aaa" : String), [none])
      (by rw [buildMarkovChainQ_example]; exact List.mem_singleton.mpr rfl)
      none (List.mem_singleton.mpr rfl)⟩

/-! ### C10: whitespace token counting in the analyzer -/

theorem splitWSAux_ne_nil (l : List Char) :
    ∀ (mode : Bool) (acc : List Char), splitWSAux mode acc l ≠ [] := by
  induction l with
  | nil =>
    intro mode acc
    cases mode <;> simp [splitWSAux]
  | cons c cs ih =>
    intro mode acc
    by_cases hc : c.isWhitespace = true
    · cases mode
      · simp [splitWSAux, hc]
      · simp only [splitWSAux, hc, if_true]
        exact ih true []
    · have hc2 : c.isWhitespace = false := by
        cases h : c.isWhitespace
        · rfl
        · exact absurd h hc
      cases mode
      · simp only [splitWSAux, hc2, Bool.false_eq_true, if_false]
        exact ih false (c :: acc)
      · simp only [splitWSAux, hc2, Bool.false_eq_true, if_false]
        exact ih false [c]

theorem splitWSAux_true_eq (l : List Char) :
    ∀ acc : List Char,
      splitWSAux true acc l = splitWS (l.dropWhile Char.isWhitespace) := by
  induction l with
  | nil =>
    intro acc
    simp [splitWSAux, splitWS, List.dropWhile]
  | cons c cs ih =>
    intro acc
    by_cases hc : c.isWhitespace = true
    · rw [show splitWSAux true acc (c :: cs) = splitWSAux true [] cs from by
        simp [splitWSAux, hc]]
      rw [show (c :: cs).dropWhile Char.isWhitespace =
        cs.dropWhile Char.isWhitespace from by simp [List.dropWhile_cons, hc]]
      exact ih []
    · have hc2 : c.isWhitespace = false := by
        cases h : c.isWhitespace
        · rfl
        · exact absurd h hc
      rw [show splitWSAux true acc (c :: cs) = splitWSAux false [c] cs from by
        simp [splitWSAux, hc2]]
      rw [show (c :: cs).dropWhile Char.isWhitespace = c :: cs from by
        simp [List.dropWhile_cons, hc2]]
      simp [splitWS, splitWSAux, hc2]

theorem splitWS_cons_ws (c : Char) (l : List Char)
    (hc : c.isWhitespace = true) :
    splitWS (c :: l) = [] :: splitWS (l.dropWhile Char.isWhitespace) := by
  unfold splitWS
  simp only [splitWSAux, hc, if_true, List.reverse_nil]
  rw [splitWSAux_true_eq]
  rfl

theorem getLast?_cons_of_ne_nil {α : Type} (a : α) {t : List α}
    (h : t ≠ []) : (a :: t).getLast? = t.getLast? := by
  cases t with
  | nil => exact absurd rfl h
  | cons b u => exact List.getLast?_cons_cons

theorem splitWSAux_append_ws (c : Char) (hc : c.isWhitespace = true)
    (l : List Char) :
    ∀ (mode : Bool) (acc : List Char),
      (splitWSAux mode acc (l ++ [c])).getLast? = some [] := by
  induction l with
  | nil =>
    intro mode acc
    cases mode
    · simp [splitWSAux, hc]
    · simp [splitWSAux, hc]
  | cons d ds ih =>
    intro mode acc
    by_cases hd : d.isWhitespace = true
    · cases mode
      · rw [show splitWSAux false acc ((d :: ds) ++ [c]) =
          acc.reverse :: splitWSAux true [] (ds ++ [c]) from by
            simp [splitWSAux, hd]]
        rw [getLast?_cons_of_ne_nil _ (splitWSAux_ne_nil _ _ _)]
        exact ih true []
      · rw [show splitWSAux true acc ((d :: ds) ++ [c]) =
          splitWSAux true [] (ds ++ [c]) from by simp [splitWSAux, hd]]
        exact ih true []
    · have hd2 : d.isWhitespace = false := by
        cases h : d.isWhitespace
        · rfl
        · exact absurd h hd
      cases mode
      · rw [show splitWSAux false acc ((d :: ds) ++ [c]) =
          splitWSAux false (d :: acc) (ds ++ [c]) from by
            simp [splitWSAux, hd2]]
        exact ih false (d :: acc)
      · rw [show splitWSAux true acc ((d :: ds) ++ [c]) =
          splitWSAux false [d] (ds ++ [c]) from by simp [splitWSAux, hd2]]
        exact ih false [d]

/-- C10: the analyzer counts words by splitting on whitespace without
discarding empty fields: the empty corpus reports one word but zero
posts; a leading whitespace character contributes one extra (empty) field
to the word count; and a trailing whitespace character makes the final
counted field the empty token. -/
theorem analyzeText_whitespace_tokens :
    ((analyzeText "").totalWords = 1 ∧ (analyzeText "").totalPosts = 0) ∧
      (∀ (c : Char) (l : List Char), c.isWhitespace = true →
        (analyzeText (String.mk (c :: l))).totalWords =
          1 + (splitWS (l.dropWhile Char.isWhitespace)).length) ∧
      (∀ (l : List Char) (c : Char), c.isWhitespace = true →
        (splitWS (l ++ [c])).getLast? = some []) := by
  refine ⟨by decide, ?_, ?_⟩
  · intro c l hc
    show (splitWS (String.mk (c :: l)).data).length = _
    rw [show (String.mk (c :: l)).data = c :: l from rfl]
    rw [splitWS_cons_ws c l hc, List.length_cons, Nat.add_comm]
  · intro l c hc
    exact splitWSAux_append_ws c hc l false []

/-- Witness for C10: a leading space before `"a"` yields word count 2
(one spurious empty token plus `"a"`), and a trailing space after `"a"`
makes the last counted token empty. -/
theorem analyzeText_whitespace_tokens_witness :
    ((' ' : Char).isWhitespace = true ∧
      (analyzeText (String.mk (' ' :: ('a' :: [])))).totalWords =
        1 + (splitWS (('a' :: []).dropWhile Char.isWhitespace)).length) ∧
      (splitWS (('a' :: []) ++ [' '])).getLast? = some [] :=
  ⟨⟨by decide, analyzeText_whitespace_tokens.2.1 ' ' ('a' :: []) (by decide)⟩,
    analyzeText_whitespace_tokens.2.2 ('a' :: []) ' ' (by decide)⟩

/-! ### C5: length bounds of generation -/

theorem walk_stop (chain : Chain String) (mL o : Nat) (result : List Char)
    (key : String) (rng : List Nat) (h : ¬ result.length < mL) :
    walk chain mL o result key rng = (result, rng) := by
  rw [walk]
  rw [dif_neg h]

/-- The length of the longest key in the chain. -/
def maxKeyLen (chain : Chain String) : Nat :=
  (chain.map (fun p => p.1.length)).foldr max 0

/-- The length of the longest successor word stored in any bag. -/
def maxSuccLen (chain : Chain String) : Nat :=
  (chain.map (fun p => (p.2.map String.length).foldr max 0)).foldr max 0

theorem le_foldr_max (l : List Nat) : ∀ x ∈ l, x ≤ l.foldr max 0 := by
  induction l with
  | nil => simp
  | cons a l ih =>
    intro x hx
    rcases List.mem_cons.mp hx with rfl | hx
    · exact le_max_left _ _
    · exact le_trans (ih x hx) (le_max_right _ _)

theorem keyLen_le (chain : Chain String) (k : String)
    (hk : k ∈ chainKeys chain) : k.length ≤ maxKeyLen chain := by
  unfold chainKeys at hk
  rcases List.mem_map.mp hk with ⟨p, hp, rfl⟩
  exact le_foldr_max _ _ (List.mem_map.mpr ⟨p, hp, rfl⟩)

theorem succLen_le (chain : Chain String) (k : String) (bag : List String)
    (hf : chainFind chain k = some bag) (w : String) (hw : w ∈ bag) :
    w.length ≤ maxSuccLen chain := by
  unfold chainFind at hf
  cases hfind : List.find? (fun (p : String × List String) => p.1 = k) chain with
  | none =>
    rw [hfind] at hf
    simp at hf
  | some p =>
    rw [hfind] at hf
    simp at hf
    have hpmem := List.mem_of_find?_eq_some hfind
    have h1 : w.length ≤ (p.2.map String.length).foldr max 0 :=
      le_foldr_max _ _ (List.mem_map.mpr ⟨w, hf ▸ hw, rfl⟩)
    exact le_trans h1 (le_foldr_max _ _ (List.mem_map.mpr ⟨p, hpmem, rfl⟩))

theorem length_dropWhile_le (p : Char → Bool) (l : List Char) :
    (l.dropWhile p).length ≤ l.length := by
  induction l with
  | nil => simp
  | cons c cs ih =>
    by_cases h : p c
    · simp only [List.dropWhile_cons, h, if_true, List.length_cons]
      omega
    · simp [List.dropWhile_cons, h]

theorem trimL_length_le (l : List Char) : (trimL l).length ≤ l.length := by
  unfold trimL
  rw [List.length_reverse]
  calc ((l.dropWhile Char.isWhitespace).reverse.dropWhile
          Char.isWhitespace).length
      ≤ (l.dropWhile Char.isWhitespace).reverse.length :=
        length_dropWhile_le _ _
    _ = (l.dropWhile Char.isWhitespace).length := List.length_reverse _
    _ ≤ l.length := length_dropWhile_le _ _

theorem finishResult_length_le (res0 : List Char) :
    (finishResult res0).length ≤ res0.length := by
  unfold finishResult
  by_cases h : endsSentence (trimL res0) = false ∧ 100 < (trimL res0).length
  · rw [if_pos h]
    have hle : ∀ r : Option Nat,
        (match r with
          | some i => joinSep (List.take (i + 1) (splitChar ' ' (trimL res0)))
          | none => trimL res0).length ≤ res0.length := by
      intro r
      cases r with
      | none => exact trimL_length_le res0
      | some i =>
        have h1 := joinSep_length_le_of_take (splitChar ' ' (trimL res0)) (i + 1)
        rw [joinSep_splitChar] at h1
        exact le_trans h1 (trimL_length_le res0)
    exact hle _
  · rw [if_neg h]
    exact trimL_length_le res0

theorem walk_length_le (chain : Chain String) (mL o : Nat) :
    ∀ (fuel : Nat) (result : List Char) (key : String) (rng : List Nat),
      mL - result.length ≤ fuel →
      ((walk chain mL o result key rng).1).length ≤
        max result.length (mL + maxSuccLen chain) := by
  intro fuel
  induction fuel with
  | zero =>
    intro result key rng hf
    have h : ¬ result.length < mL := by omega
    rw [walk_stop _ _ _ _ _ _ h]
    exact le_max_left _ _
  | succ fuel ih =>
    intro result key rng hf
    by_cases h : result.length < mL
    · rw [walk, dif_pos h]
      split
      · exact le_max_left _ _
      · next bag hfind =>
        by_cases hb : bag.length = 0
        · rw [if_pos hb]
          exact le_max_left _ _
        · rw [if_neg hb]
          simp only [draw]
          have hidx : rng.headD 0 % bag.length < bag.length :=
            Nat.mod_lt _ (Nat.pos_of_ne_zero hb)
          have hwlen : (bag.getD (rng.headD 0 % bag.length)
              (String.mk [])).length ≤ maxSuccLen chain := by
            apply succLen_le chain key bag hfind
            rw [List.getD_eq_getElem?_getD, List.getElem?_eq_getElem hidx]
            exact List.getElem_mem hidx
          set nextWord := bag.getD (rng.headD 0 % bag.length) (String.mk [])
            with hnw
          have hr1 : (result ++ ' ' :: nextWord.data).length =
              result.length + 1 + nextWord.length := by
            simp [List.length_append]
            omega
          have hbound : (result ++ ' ' :: nextWord.data).length ≤
              mL + maxSuccLen chain := by
            rw [hr1]
            have : nextWord.length ≤ maxSuccLen chain := hwlen
            omega
          by_cases hws : o ≤ (splitChar ' ' (result ++ ' ' :: nextWord.data)).length
          · rw [if_pos hws]
            by_cases hp : 50 < (result ++ ' ' :: nextWord.data).length ∧
                endsSentence nextWord.data = true
            · rw [if_pos hp]
              exact le_trans hbound (le_max_right _ _)
            · rw [if_neg hp]
              have hrec := ih (result ++ ' ' :: nextWord.data)
                (String.mk (joinSep (sliceNeg o
                  (splitChar ' ' (result ++ ' ' :: nextWord.data)))))
                rng.tail (by rw [hr1]; omega)
              refine le_trans hrec (max_le ?_ (le_max_right _ _))
              exact le_trans hbound (le_max_right _ _)
          · rw [if_neg hws]
            exact le_trans hbound (le_max_right _ _)
    · rw [walk_stop _ _ _ _ _ _ h]
      exact le_max_left _ _

theorem attempt_length_le (chain : Chain String) (mL o : Nat)
    (rng : List Nat) (hk : chainKeys chain ≠ []) :
    ((attempt chain (chainKeys chain) mL o rng).1).length ≤
      max (maxKeyLen chain) (mL + maxSuccLen chain) := by
  have hstart : ∀ (sk : String) (r : List Nat), sk ∈ chainKeys chain →
      (finishResult (walk chain mL o sk.data sk r).1).length ≤
        max (maxKeyLen chain) (mL + maxSuccLen chain) := by
    intro sk r hsk
    have h1 := finishResult_length_le (walk chain mL o sk.data sk r).1
    have h2 := walk_length_le chain mL o mL sk.data sk r (Nat.sub_le _ _)
    have h3 : sk.data.length ≤ maxKeyLen chain := keyLen_le chain sk hsk
    refine le_trans h1 (le_trans h2 (max_le ?_ (le_max_right _ _)))
    exact le_trans h3 (le_max_left _ _)
  unfold attempt
  simp only [draw]
  by_cases hs : 0 <
      (List.filter (fun k => startsUpper k.data) (chainKeys chain)).length
  · rw [if_pos hs]
    have hidx : rng.headD 0 %
        (List.filter (fun k => startsUpper k.data) (chainKeys chain)).length <
        (List.filter (fun k => startsUpper k.data) (chainKeys chain)).length :=
      Nat.mod_lt _ hs
    cases hw : walk chain mL o
        ((List.filter (fun k => startsUpper k.data) (chainKeys chain)).getD
          (rng.headD 0 % (List.filter (fun k => startsUpper k.data)
            (chainKeys chain)).length) (String.mk [])).data
        ((List.filter (fun k => startsUpper k.data) (chainKeys chain)).getD
          (rng.headD 0 % (List.filter (fun k => startsUpper k.data)
            (chainKeys chain)).length) (String.mk []))
        rng.tail with
    | mk res0 rng2 =>
      have hmem : (List.filter (fun k => startsUpper k.data)
          (chainKeys chain)).getD
          (rng.headD 0 % (List.filter (fun k => startsUpper k.data)
            (chainKeys chain)).length) (String.mk []) ∈ chainKeys chain := by
        apply List.mem_of_mem_filter (p := fun k => startsUpper k.data)
        rw [List.getD_eq_getElem?_getD, List.getElem?_eq_getElem hidx]
        exact List.getElem_mem hidx
      have := hstart _ rng.tail hmem
      rw [hw] at this
      exact this
  · rw [if_neg hs]
    have hpos : 0 < (chainKeys chain).length := List.length_pos.mpr hk
    have hidx : rng.headD 0 % (chainKeys chain).length <
        (chainKeys chain).length := Nat.mod_lt _ hpos
    cases hw : walk chain mL o
        ((chainKeys chain).getD
          (rng.headD 0 % (chainKeys chain).length) (String.mk [])).data
        ((chainKeys chain).getD
          (rng.headD 0 % (chainKeys chain).length) (String.mk []))
        rng.tail with
    | mk res0 rng2 =>
      have hmem : (chainKeys chain).getD
          (rng.headD 0 % (chainKeys chain).length) (String.mk []) ∈
          chainKeys chain := by
        rw [List.getD_eq_getElem?_getD, List.getElem?_eq_getElem hidx]
        exact List.getElem_mem hidx
      have := hstart _ rng.tail hmem
      rw [hw] at this
      exact this

theorem generateLoop_length_le (chain : Chain String) (mL o : Nat)
    (oT : List String) (hk : chainKeys chain ≠ []) :
    ∀ (n : Nat) (r0 : List Char) (rng : List Nat),
      r0.length ≤ max (maxKeyLen chain) (mL + maxSuccLen chain) →
      ((generateLoop chain (chainKeys chain) mL o oT n r0 rng).1).length ≤
        max (maxKeyLen chain) (mL + maxSuccLen chain) := by
  intro n
  induction n with
  | zero =>
    intro r0 rng h0
    simpa [generateLoop] using h0
  | succ n ih =>
    intro r0 rng h0
    simp only [generateLoop]
    cases hA : attempt chain (chainKeys chain) mL o rng with
    | mk res rng1 =>
      have hres := attempt_length_le chain mL o rng hk
      rw [hA] at hres
      by_cases hd : isDup oT res = true
      · simp only [hd, if_true]
        exact ih res rng1 hres
      · have hd2 : isDup oT res = false := by
          cases h : isDup oT res
          · rfl
          · exact absurd h hd
        simp only [hd2, Bool.false_eq_true, if_false]
        exact hres

/-- C5 (amended): the string returned by `generateText` is never longer
than the maximum of the length of the longest key in the chain and
`maxLength` plus the length of the longest successor word.  (The original
bound `maxLength` plus one trailing word fails when the walk appends no
word and the chosen start key is already longer than `maxLength`.) -/
theorem generateText_length_le (chain : Chain String) (mL o : Nat)
    (oT : List String) (mA : Nat) (rng : List Nat) (hk : chain ≠ []) :
    ((generateText chain mL o oT mA rng).1).length ≤
      max (maxKeyLen chain) (mL + maxSuccLen chain) := by
  have hkeys : chainKeys chain ≠ [] := by
    unfold chainKeys
    simpa using hk
  have hlen : ¬ (chainKeys chain).length = 0 := by
    intro hcon
    exact hkeys (List.length_eq_zero.mp hcon)
  simp only [generateText]
  rw [if_neg hlen]
  cases hL : generateLoop chain (chainKeys chain) mL o oT mA [] rng with
  | mk r rng1 =>
    have := generateLoop_length_le chain mL o oT hkeys mA [] rng (by simp)
    rw [hL] at this
    simpa using this

/-- Witness for the amended C5 at a one-key chain with `maxLength` 1. -/
theorem generateText_length_le_witness :
    ([(("Aa" : String), ["x."])] : Chain String) ≠ [] ∧
      ((generateText [(("Aa" : String), ["x."])] 1 1 [] 1 []).1).length ≤
        max (maxKeyLen [(("Aa" : String), ["x."])])
          (1 + maxSuccLen [(("Aa" : String), ["x."])]) :=
  ⟨by decide, generateText_length_le _ 1 1 [] 1 [] (by decide)⟩

theorem attempt_cex5 :
    attempt [(("Aa bb" : String), ["x"])]
        (chainKeys [(("Aa bb" : String), ["x"])]) 1 2 [0] =
      (("Aa bb" : String).data, []) := by
  have hw : walk [(("Aa bb" : String), ["x"])] 1 2 ("Aa bb" : String).data
      ("Aa bb" : String) [] = (("Aa bb" : String).data, []) :=
    walk_stop _ _ _ _ _ _ (by decide)
  simp only [attempt, chainKeys, draw]
  norm_num
  rw [show (List.filter (fun k => startsUpper k.data) [("Aa bb" : String)]) =
    [("Aa bb" : String)] from by decide]
  simp only [List.length_cons, List.length_nil, List.getElem?_cons_zero,
    Option.getD_some]
  rw [if_pos (Nat.succ_pos 0)]
  rw [hw]
  decide

/-- C5 counterexample: with the one-key chain `{"Aa bb": ["x"]}`,
`maxLength = 1`, order 2 and one attempt, the walk appends no word (the
start key already reaches `maxLength`), and the returned string `"Aa bb"`
(5 characters) exceeds `maxLength` plus the length of its trailing word
`"bb"` (1 + 2 = 3) — and a fortiori `maxLength` plus the length of the
(non-existent) word appended by the final iteration. -/
theorem generateText_length_cex :
    (generateText [(("Aa bb" : String), ["x"])] 1 2 [] 1 [0]).1 =
        ("Aa bb" : String) ∧
      ("Aa bb" : String).length >
        1 + ((splitChar ' ' ("Aa bb" : String).data).getLastD []).length := by
  constructor
  · simp only [generateText, generateLoop]
    rw [if_neg (by decide)]
    rw [attempt_cex5]
    rw [show isDup [] ("Aa bb" : String).data = false from rfl]
    simp
  · decide

/-! ### C4: the duplicate-retry loop -/

theorem candRng_succ_shift (chain : Chain String) (mL o : Nat)
    (rng : List Nat) (k : Nat) :
    candRng chain mL o rng (k + 1) =
      candRng chain mL o (candRng chain mL o rng 1) k := by
  induction k with
  | zero => rfl
  | succ k ih =>
    show (attempt chain (chainKeys chain) mL o
        (candRng chain mL o rng (k + 1))).2 =
      (attempt chain (chainKeys chain) mL o
        (candRng chain mL o (candRng chain mL o rng 1) k)).2
    rw [ih]

theorem candidate_succ_shift (chain : Chain String) (mL o : Nat)
    (rng : List Nat) (k : Nat) :
    candidate chain mL o rng (k + 1) =
      candidate chain mL o (candRng chain mL o rng 1) k := by
  unfold candidate
  rw [candRng_succ_shift]

theorem generateLoop_first_nondup (chain : Chain String) (mL o : Nat)
    (oT : List String) :
    ∀ (n : Nat) (rng : List Nat) (r0 : List Char) (m : Nat),
      m < n →
      isDup oT (candidate chain mL o rng m) = false →
      (∀ j, j < m → isDup oT (candidate chain mL o rng j) = true) →
      generateLoop chain (chainKeys chain) mL o oT n r0 rng =
        (candidate chain mL o rng m, candRng chain mL o rng (m + 1)) := by
  intro n
  induction n with
  | zero =>
    intro rng r0 m hm
    exact absurd hm (Nat.not_lt_zero m)
  | succ n ih =>
    intro rng r0 m hm hdup hbefore
    have hA : attempt chain (chainKeys chain) mL o rng =
        (candidate chain mL o rng 0, candRng chain mL o rng 1) := rfl
    simp only [generateLoop, hA]
    cases m with
    | zero =>
      rw [hdup]
      simp
    | succ m' =>
      have h0 : isDup oT (candidate chain mL o rng 0) = true :=
        hbefore 0 (Nat.succ_pos m')
      rw [h0]
      simp only [if_true]
      rw [ih (candRng chain mL o rng 1) (candidate chain mL o rng 0) m'
        (by omega)
        (by rw [← candidate_succ_shift]; exact hdup)
        (fun j hj => by
          rw [← candidate_succ_shift]
          exact hbefore (j + 1) (by omega))]
      rw [← candidate_succ_shift, ← candRng_succ_shift]

theorem generateLoop_all_dup (chain : Chain String) (mL o : Nat)
    (oT : List String) :
    ∀ (n : Nat) (rng : List Nat) (r0 : List Char),
      1 ≤ n →
      (∀ k, k < n → isDup oT (candidate chain mL o rng k) = true) →
      generateLoop chain (chainKeys chain) mL o oT n r0 rng =
        (candidate chain mL o rng (n - 1), candRng chain mL o rng n) := by
  intro n
  induction n with
  | zero =>
    intro rng r0 h
    omega
  | succ n ih =>
    intro rng r0 _ hall
    have hA : attempt chain (chainKeys chain) mL o rng =
        (candidate chain mL o rng 0, candRng chain mL o rng 1) := rfl
    simp only [generateLoop, hA]
    have h0 : isDup oT (candidate chain mL o rng 0) = true :=
      hall 0 (Nat.succ_pos n)
    rw [h0]
    simp only [if_true]
    rcases Nat.eq_zero_or_pos n with hz | hpos
    · subst hz
      simp [generateLoop]
    · rw [ih (candRng chain mL o rng 1) (candidate chain mL o rng 0) hpos
        (fun k hk => by
          rw [← candidate_succ_shift]
          exact hall (k + 1) (by omega))]
      rw [← candidate_succ_shift, ← candRng_succ_shift]
      have hn : n - 1 + 1 = n := by omega
      rw [hn, Nat.add_sub_cancel]

/-- C4: for every chain with at least one key and at least one attempt,
`generateText` returns the first attempt candidate that is not a
(case-insensitive, trimmed-line) duplicate of an `originalText` entry,
and when every one of the `maxAttempts` candidates is a duplicate it
returns the last generated (possibly duplicate) candidate rather than
failing.  (`isDup` is the source's comparison
`originalText.some(line => line.trim().toLowerCase() === result.toLowerCase())`.) -/
theorem generateText_duplicate_retry (chain : Chain String) (mL o : Nat)
    (oT : List String) (n : Nat) (rng : List Nat)
    (hk : ¬ (chainKeys chain).length = 0) (hn : 1 ≤ n) :
    ((∀ k, k < n → isDup oT (candidate chain mL o rng k) = true) →
      (generateText chain mL o oT n rng).1 =
        String.mk (candidate chain mL o rng (n - 1))) ∧
    (∀ m, m < n → isDup oT (candidate chain mL o rng m) = false →
      (∀ j, j < m → isDup oT (candidate chain mL o rng j) = true) →
      (generateText chain mL o oT n rng).1 =
        String.mk (candidate chain mL o rng m)) := by
  constructor
  · intro hall
    simp only [generateText]
    rw [if_neg hk]
    rw [generateLoop_all_dup chain mL o oT n rng [] hn hall]
  · intro m hm hdup hbefore
    simp only [generateText]
    rw [if_neg hk]
    rw [generateLoop_first_nondup chain mL o oT n rng [] m hm hdup hbefore]

/-- Witness for C4 at the one-key chain `{"Aa": ["x."]}` with one attempt
and no original lines: the first candidate is not a duplicate, and
`generateText` returns exactly that candidate. -/
theorem generateText_duplicate_retry_witness :
    (¬ (chainKeys ([(("Aa" : String), ["x."])] : Chain String)).length = 0 ∧
      isDup [] (candidate [(("Aa" : String), ["x."])] 1 1 [] 0) = false) ∧
      (generateText [(("Aa" : String), ["x."])] 1 1 [] 1 []).1 =
        String.mk (candidate [(("Aa" : String), ["x."])] 1 1 [] 0) :=
  ⟨⟨by decide, rfl⟩,
    (generateText_duplicate_retry [(("Aa" : String), ["x."])] 1 1 [] 1 []
        (by decide) (by decide)).2 0 (by decide) rfl
      (fun j hj => absurd hj (Nat.not_lt_zero j))⟩

end MarkovBot
